import Mathlib

/-!
# Verification of the swayctrl focus-history daemon and tree-selection logic

This development gives a shallow embedding of the core of the `swayctrl`
utility: the MRU (most-recently-used) window list maintained by the daemon
(`windowMRUList` with its `bringFront`, `delete` and `all` operations), the
window-tree selection and ranking used by the `focus`, `appnext` and `prev`
commands, the file-lock singleton guard, and the daemon's window-event
handler.

Representation choices:
* Window identifiers (`int64` in the source) are modelled as `Int`; they are
  opaque identifiers and no arithmetic is performed on them.
* The Go `map[int64]*mruElt` together with the heap of `mruElt` nodes is
  modelled as one association list from identifier to node record.  This is
  faithful because the map is keyed by the node's own `id` field, a node is
  allocated only when its id is absent from the map, and `delete` unlinks the
  removed node, so at every reachable state the nodes and the map entries are
  in bijection; a pointer to a node is represented by the node's id.
* Pointer writes through `e.prev` / `e.next` become functional updates of the
  association list, performed in the same order as the source.
* `slices.SortStableFunc` (an external library routine) is modelled by its
  documented contract: a stable sort, here an insertion sort that keeps the
  original order of elements that are not strictly ordered by `less`.
* External collaborators (the sway IPC client, `regexp`, `flock`) are
  modelled as parameters or by their documented contracts.
-/

/-! ## The MRU window list (`windowMRUList`) -/

/-- Element of the serialized MRU snapshot (`type listWindow struct`). -/
structure listWindow where
  ID : Int
  AppID : String
deriving Repr, DecidableEq

/-- A node of the doubly-linked MRU list (`type mruElt struct`).  The Go
`prev`/`next` pointers are represented by the id of the pointed-to node
(`none` for `nil`). -/
structure mruElt where
  prev : Option Int
  next : Option Int
  id : Int
  appID : String
deriving Repr, DecidableEq

/-- The store of MRU nodes, indexed by window id (the Go `map[int64]*mruElt`
together with the nodes it points to). -/
def MruMap := List (Int × mruElt)
deriving Repr, DecidableEq

/-- Go map read `l.m[id]`. -/
def mlookup : MruMap → Int → Option mruElt
  | [], _ => none
  | (k', v) :: m, k => if k = k' then some v else mlookup m k

/-- Go map removal `delete(l.m, id)`. -/
def merase : MruMap → Int → MruMap
  | [], _ => []
  | (k', v) :: m, k => if k = k' then merase m k else (k', v) :: merase m k

/-- Go map write `l.m[id] = e` (also used for a mutation of the node that
`l.m[id]` points to). -/
def minsert (m : MruMap) (k : Int) (v : mruElt) : MruMap :=
  (k, v) :: merase m k

/-- Pointer write `e.next = v` on the node with id `k` (a no-op on a dangling
id, which cannot occur in reachable states). -/
def msetNext (m : MruMap) (k : Int) (v : Option Int) : MruMap :=
  match mlookup m k with
  | some e => minsert m k { e with next := v }
  | none => m

/-- Pointer write `e.prev = v` on the node with id `k`. -/
def msetPrev (m : MruMap) (k : Int) (v : Option Int) : MruMap :=
  match mlookup m k with
  | some e => minsert m k { e with prev := v }
  | none => m

/-- The MRU list state (`type windowMRUList struct`): head pointer plus the
node store. -/
structure windowMRUList where
  head : Option Int
  m : MruMap
deriving Repr, DecidableEq

/-- The empty MRU list, as built by `newDaemonHandler`. -/
def windowMRUList.empty : windowMRUList := { head := none, m := [] }

/-- The unlink-and-relink-at-head part of `bringFront` (source lines
`if e.prev != nil { ... }` through `l.head = e`), performed on the node `e`
for id `id`; the writes happen in source order.  `head` is `l.head` at entry.
The final `if e.next != nil { e.next.prev = e }` writes through the new
`e.next`, which is the old head. -/
def relinkFront (head : Option Int) (m : MruMap) (id : Int) (e : mruElt) :
    windowMRUList :=
  let m1 := match e.prev with
    | some p => msetNext m p e.next
    | none => m
  let m2 := match e.next with
    | some n => msetPrev m1 n e.prev
    | none => m1
  let m3 := minsert m2 id { e with prev := none, next := head }
  let m4 := match head with
    | some hd => msetPrev m3 hd (some id)
    | none => m3
  { head := some id, m := m4 }

/-- `func (l *windowMRUList) bringFront(id int64, appID string)`.

In the source, `l.head == e` is a pointer comparison; it can only hold when
`e` was found in the map (a freshly allocated node is never the head), in
which case it is equivalent to `l.head = some id`. -/
def windowMRUList.bringFront (l : windowMRUList) (id : Int) (appID : String) :
    windowMRUList :=
  match mlookup l.m id with
  | some e0 =>
      let e := { e0 with appID := appID }
      let m := minsert l.m id e
      if l.head = some id then { head := l.head, m := m }
      else relinkFront l.head m id e
  | none =>
      let e : mruElt := { prev := none, next := none, id := id, appID := appID }
      let m := minsert l.m id e
      relinkFront l.head m id e

/-- `func (l *windowMRUList) delete(id int64)`.  `l.head == e` is again a
pointer comparison, equivalent to `l.head = some id` since `e` is the node
stored for `id`. -/
def windowMRUList.delete (l : windowMRUList) (id : Int) : windowMRUList :=
  match mlookup l.m id with
  | none => l
  | some e =>
      let m1 := merase l.m id
      let m2 := match e.prev with
        | some p => msetNext m1 p e.next
        | none => m1
      let m3 := match e.next with
        | some n => msetPrev m2 n e.prev
        | none => m2
      let head := if l.head = some id then e.next else l.head
      { head := head, m := m3 }

/-- The traversal loop of `func (l *windowMRUList) all() []listWindow`.
`cur` is the current node pointer.  The source counts the visited nodes
upward in `i` and panics (`panic("boom")`) when `i > 100`; here the counter
is represented by the remaining budget `r = 100 - i` (counting down gives
structural recursion), so `r = 0` at a non-nil node is the panic.  The panic
— and the impossible-in-reachable-states dangling pointer — are modelled as
`none`. -/
def windowMRUList.allFrom (m : MruMap) : Option Int → Nat → Option (List listWindow)
  | none, _ => some []
  | some _, 0 => none
  | some k, r + 1 =>
      match mlookup m k with
      | none => none
      | some e =>
          match windowMRUList.allFrom m e.next r with
          | none => none
          | some rest => some ({ ID := e.id, AppID := e.appID } :: rest)

/-- `func (l *windowMRUList) all() []listWindow`: the head-to-tail snapshot,
`none` when the traversal panics. -/
def windowMRUList.all (l : windowMRUList) : Option (List listWindow) :=
  windowMRUList.allFrom l.m l.head 100

/-! ## Abstraction: a state represents an abstract list of window records -/

/-- The id of the first record of `ws`, or `dflt` when `ws` is empty. -/
def headIDOr (ws : List listWindow) (dflt : Option Int) : Option Int :=
  match ws with
  | [] => dflt
  | w :: _ => some w.ID

/-- The id of the last record of `ws`, or `dflt` when `ws` is empty. -/
def lastIDOr (ws : List listWindow) (dflt : Option Int) : Option Int :=
  match ws with
  | [] => dflt
  | w :: rest => lastIDOr rest (some w.ID)

/-- `chainSeg m prv ws nxt`: the records `ws` form a consecutive doubly-linked
segment in the store `m`; the first record's `prev` pointer is `prv` and the
last record's `next` pointer is `nxt`. -/
def chainSeg (m : MruMap) : Option Int → List listWindow → Option Int → Prop
  | _, [], _ => True
  | prv, w :: rest, nxt =>
      ∃ e, mlookup m w.ID = some e ∧ e.id = w.ID ∧ e.appID = w.AppID ∧
        e.prev = prv ∧ e.next = headIDOr rest nxt ∧ chainSeg m (some w.ID) rest nxt

/-- `l` is a well-formed MRU list whose head-to-tail contents are `ws`. -/
structure windowMRUList.represents (l : windowMRUList) (ws : List listWindow) : Prop where
  head_eq : l.head = headIDOr ws none
  chain : chainSeg l.m none ws none
  nodup : (ws.map listWindow.ID).Nodup
  dom : ∀ k, (mlookup l.m k).isSome = true ↔ k ∈ ws.map listWindow.ID

/-- The two neighbour-stitching writes shared by `delete` and the relink part
of `bringFront`: the node at `op` (the unlinked node's `prev`) gets its `next`
set to `onn` (the unlinked node's `next`), and the node at `onn` gets its
`prev` set to `op`.  Both `delete` and `relinkFront` reduce to this shape. -/
def unlinkWrites (m : MruMap) (op onn : Option Int) : MruMap :=
  match onn with
  | some n => msetPrev (match op with
      | some p => msetNext m p onn
      | none => m) n op
  | none => match op with
      | some p => msetNext m p onn
      | none => m

/-- The MRU state after focus events for `n` distinct windows with ids
`0, 1, …, n-1` (most recent last), starting from the empty list. -/
def mruSeed (n : Nat) : windowMRUList :=
  (List.range n).foldl (fun l i => l.bringFront (i : Int) "a") windowMRUList.empty

/-! ## The sway window tree and the selection logic -/

/-- The sway node types relevant to the selection logic (go-sway `NodeType`). -/
inductive NodeType
  | root
  | output
  | workspace
  | con
  | floating_con
deriving Repr, DecidableEq

/-- The subset of the go-sway `Node` fields used by the selection logic
(`Type` is renamed `nodeType`, a reserved word in Lean).  `AppID` and
`Visible` are nullable pointers in Go (`*string` / `*bool`); `FloatingNodes`
and `Nodes` are the floating and tiled children. -/
structure Node where
  ID : Int
  Name : String
  nodeType : NodeType
  AppID : Option String
  Visible : Option Bool
  Focused : Bool
  FloatingNodes : List Node
  Nodes : List Node

mutual

/-- Structural equality of nodes, modelling Go pointer equality between nodes
of one tree snapshot (node ids are unique within a snapshot, so structurally
equal nodes of one snapshot are the same node). -/
def nodeBEq : Node → Node → Bool
  | ⟨i0, nm0, t0, a0, v0, f0, fl0, ns0⟩, ⟨i1, nm1, t1, a1, v1, f1, fl1, ns1⟩ =>
      i0 == i1 && nm0 == nm1 && t0 == t1 && a0 == a1 && v0 == v1 && f0 == f1 &&
        nodeListBEq fl0 fl1 && nodeListBEq ns0 ns1

/-- Elementwise `nodeBEq` on child lists. -/
def nodeListBEq : List Node → List Node → Bool
  | [], [] => true
  | x :: xs, y :: ys => nodeBEq x y && nodeListBEq xs ys
  | _, _ => false

end

instance : BEq Node := ⟨nodeBEq⟩

mutual

/-- `func walkTree(node, fn)` with a collecting callback: the depth-first
preorder of the tree, visiting floating children before tiled children. -/
def walkTreeNodes : Node → List Node
  | n@⟨_, _, _, _, _, _, fl, ns⟩ => n :: (walkForest fl ++ walkForest ns)

/-- `walkTreeNodes` over a child list. -/
def walkForest : List Node → List Node
  | [] => []
  | n :: ns => walkTreeNodes n ++ walkForest ns

end

mutual

/-- `func treeSelect(node, fn)`: the matching nodes in traversal order. -/
def treeSelect : Node → (Node → Bool) → List Node
  | n@⟨_, _, _, _, _, _, fl, ns⟩, fn =>
      (if fn n then [n] else []) ++ (treeSelectForest fl fn ++ treeSelectForest ns fn)

/-- `treeSelect` over a child list. -/
def treeSelectForest : List Node → (Node → Bool) → List Node
  | [], _ => []
  | n :: ns, fn => treeSelect n fn ++ treeSelectForest ns fn

end

/-- The window-kind test of the `pick` predicate in `cmdFocus` (the `switch`
on `n.Type` admitting `NodeCon` and `NodeFloatingCon`). -/
def isWindowType (n : Node) : Bool :=
  match n.nodeType with
  | NodeType.con => true
  | NodeType.floating_con => true
  | _ => false

/-- The `pick` predicate built in `cmdFocus`.  The compiled `-title` regular
expression is an external collaborator, modelled as an optional predicate on
the title (`titleRE != nil` becomes `titleMatch = some f`); `appID = ""`
means the `-appid` flag was not supplied, as in the source. -/
def pickFocus (titleMatch : Option (String → Bool)) (appID : String)
    (n : Node) : Bool :=
  isWindowType n &&
    (match titleMatch with
     | some f => f n.Name
     | none => true) &&
    (appID == "" ||
      (match n.AppID with
       | some a => a == appID
       | none => false))

/-- The match predicate of `cmdAppNext`:
`n.AppID != nil && *n.AppID == *focused.AppID`.  Note that, unlike the focus
predicate, it does not test the node kind. -/
def appNextPred (fApp : String) (n : Node) : Bool :=
  match n.AppID with
  | some a => a == fApp
  | none => false

/-- The comparison passed to `slices.SortStableFunc` in `focusExisting`;
`idx` is the `idToMRUIdx` map.  The source dereferences `n.Visible`
unconditionally, so the comparison is meaningful only on nodes carrying a
visibility flag (every `con`/`floating_con` node of a sway tree does); the
nil case, on which Go would panic, is mapped to `false`. -/
def nodeLess (idx : Int → Option Nat) (n0 n1 : Node) : Bool :=
  match n0.Visible, n1.Visible with
  | some v0, some v1 =>
      if v0 ≠ v1 then v0
      else
        match idx n0.ID, idx n1.ID with
        | some i0, some i1 => decide (i0 < i1)
        | some _, none => true
        | none, some _ => false
        | none, none => false
  | _, _ => false

/-- One step of the stable insertion sort: insert `x` after every element
strictly smaller than it, before the first element that is not. -/
def stableInsert {α : Type _} (less : α → α → Bool) (x : α) : List α → List α
  | [] => [x]
  | y :: ys => if less y x then y :: stableInsert less x ys else x :: y :: ys

/-- Go `slices.SortStableFunc`, modelled by its documented contract: sort by
`less`, keeping the original order of elements that `less` does not strictly
order. -/
def sortStableFunc {α : Type _} (less : α → α → Bool) : List α → List α
  | [] => []
  | x :: xs => stableInsert less x (sortStableFunc less xs)

/-- The sort key realised by `nodeLess` on nodes with a visibility flag:
visibility, presence in the MRU index, MRU position. -/
def rank (idx : Int → Option Nat) (n : Node) : Bool × Bool × Nat :=
  (n.Visible.getD false, (idx n.ID).isSome, (idx n.ID).getD 0)

/-- The strict ordering of sort keys: visible before non-visible, then
MRU-present before MRU-absent, then smaller MRU position first. -/
def rankLt : Bool × Bool × Nat → Bool × Bool × Nat → Bool
  | (v0, m0, i0), (v1, m1, i1) =>
      if v0 ≠ v1 then v0
      else if m0 ≠ m1 then m0
      else if m0 = false then false
      else decide (i0 < i1)

/-- `focusExisting` (source lines 199–229) without the IPC side effects:
returns the con id that gets focused, or `none` when there is no match (the
Go function returns `false`).  `idx` is the `idToMRUIdx` map built by
`cmdFocus` from the daemon answer. -/
def focusExisting (idx : Int → Option Nat) (root : Node)
    (pick : Node → Bool) : Option Int :=
  let found := treeSelect root pick
  if found.isEmpty then none
  else
    let sorted := sortStableFunc (nodeLess idx) found
    sorted.head?.map (fun n => n.ID)

/-- Outcome of `cmdAppNext` after the tree fetch. -/
inductive AppNextResult
  | fatal (msg : String)
  | noop
  | focus (conID : Int)
deriving Repr, DecidableEq

/-- The selection logic of `cmdAppNext` (source lines 337–378).  `focused`
is `root.FocusedNode()`, computed by the go-sway collaborator and passed in
as a parameter; the Go pointer equality `n == focused` inside
`slices.IndexFunc` is modelled by structural equality (`nodeBEq`), faithful
for snapshots with distinct node ids.  `noop` is the early `return` on fewer
than two matches; `focus i` is the `[con_id=i] focus` command. -/
def cmdAppNext (root : Node) (focused : Node) : AppNextResult :=
  match focused.AppID with
  | none => AppNextResult.fatal "Focused node is not a container with an app ID"
  | some fApp =>
      let found := treeSelect root (appNextPred fApp)
      if found.length < 2 then AppNextResult.noop
      else
        match found.findIdx? (fun n => n == focused) with
        | none => AppNextResult.fatal "Inconsistent tree?"
        | some i =>
            match found.get? ((i + 1) % found.length) with
            | some n => AppNextResult.focus n.ID
            | none => AppNextResult.fatal "unreachable: the index is reduced modulo the length"

/-- Outcome of the selection loop of `cmdPrev`. -/
inductive PrevResult
  | focus (conID : Int)
  | noOther
deriving Repr, DecidableEq

/-- The selection loop of `cmdPrev` (source lines 404–414): focus the first
MRU entry whose id differs from the focused one; `noOther` is the final
"No other window to focus" message.  `focusedID` is `root.FocusedNode().ID`
(collaborator). -/
def cmdPrev (mruList : List listWindow) (focusedID : Int) : PrevResult :=
  match mruList with
  | [] => PrevResult.noOther
  | w :: rest =>
      if w.ID = focusedID then cmdPrev rest focusedID
      else PrevResult.focus w.ID

/-! ## Singleton guard and daemon event handler -/

/-- Outcome of `lockFile`. -/
inductive LockResult
  | acquired
  | fatalMsg (msg : String)
deriving Repr, DecidableEq

/-- `lockFile` (source lines 765–775) over the outcomes of its two external
calls: `openErr` is the error from `os.OpenFile(path, O_CREATE, 0644)`, if
any, and `alreadyLocked` tells whether `unix.Flock(fd, LOCK_EX|LOCK_NB)`
returns an error — which, under the documented flock contract with
`LOCK_NB`, happens exactly (and immediately, without blocking) when another
process holds the lock. -/
def lockFile (openErr : Option String) (alreadyLocked : Bool) : LockResult :=
  match openErr with
  | some e => LockResult.fatalMsg ("Error creating lock file: " ++ e)
  | none =>
      if alreadyLocked then
        LockResult.fatalMsg "Lockfile locked (is another instance running?)"
      else LockResult.acquired

/-- The window-event kinds distinguished by the daemon handler
(`sway.WindowFocus`, `sway.WindowTitle`, `sway.WindowClose`, anything else). -/
inductive WindowChange
  | focus
  | title
  | close
  | other
deriving Repr, DecidableEq

/-- The fields of `e.Container` used by the daemon handler. -/
structure Container where
  ID : Int
  AppID : Option String
deriving Repr, DecidableEq

/-- A `sway.WindowEvent` as seen by the daemon handler. -/
structure WindowEvent where
  Change : WindowChange
  Container : Container
deriving Repr, DecidableEq

/-- The list update performed by `daemonHandler.Window` (source lines
613–631); the mutex and the verbose logging are outside the model. -/
def daemonHandlerWindow (l : windowMRUList) (e : WindowEvent) : windowMRUList :=
  match e.Change with
  | WindowChange.focus =>
      let appID := match e.Container.AppID with
        | some s => if s ≠ "" then s else "?"
        | none => "?"
      l.bringFront e.Container.ID appID
  | WindowChange.close => l.delete e.Container.ID
  | _ => l

/-! ## Concrete fixtures used in the examples -/

/-- A window node for the ranking example. -/
def exWin (i : Int) (vis : Bool) : Node :=
  { ID := i, Name := "w", nodeType := NodeType.con, AppID := some "app",
    Visible := some vis, Focused := false, FloatingNodes := [], Nodes := [] }

/-- The tree of the ranking example: the matches, in tree order, are
window 1 (not visible, MRU 2), window 2 (visible, no MRU entry) and
window 3 (visible, MRU 0). -/
def exRootRank : Node :=
  { ID := 0, Name := "", nodeType := NodeType.root, AppID := none,
    Visible := none, Focused := false, FloatingNodes := [],
    Nodes := [exWin 1 false, exWin 2 true, exWin 3 true] }

/-- The MRU index of the ranking example: window 1 at position 2, window 3
at position 0, window 2 absent. -/
def exIdxRank : Int → Option Nat := fun i =>
  if i = 1 then some 2 else if i = 3 then some 0 else none

/-- A window node with an application id, for the appnext examples. -/
def exApp (i : Int) (foc : Bool) : Node :=
  { ID := i, Name := "t", nodeType := NodeType.con, AppID := some "term",
    Visible := some true, Focused := foc, FloatingNodes := [], Nodes := [] }

/-- The tree of the appnext example: three windows of the same application,
the middle one focused. -/
def exRootApp : Node :=
  { ID := 0, Name := "", nodeType := NodeType.root, AppID := none,
    Visible := none, Focused := false, FloatingNodes := [],
    Nodes := [exApp 10 false, exApp 11 true, exApp 12 false] }

/-- A workspace container carrying an application id: the appnext predicate
selects it although it is not a window kind. -/
def exWsCon : Node :=
  { ID := 20, Name := "ws", nodeType := NodeType.workspace,
    AppID := some "term", Visible := some true, Focused := false,
    FloatingNodes := [], Nodes := [exApp 21 true] }

/-- A tree containing the workspace container `exWsCon`. -/
def exRootWs : Node :=
  { ID := 0, Name := "", nodeType := NodeType.root, AppID := none,
    Visible := none, Focused := false, FloatingNodes := [], Nodes := [exWsCon] }

/-! ## Map-update lemmas -/

theorem mlookup_merase (m : MruMap) (k k' : Int) :
    mlookup (merase m k) k' = if k' = k then none else mlookup m k' := by
  induction m with
  | nil => simp [merase, mlookup]
  | cons kv m ih =>
      obtain ⟨k0, v0⟩ := kv
      by_cases h1 : k = k0
      · subst h1
        by_cases h2 : k' = k
        · subst h2
          simp [merase, mlookup, ih]
        · simp [merase, mlookup, h2, ih]
      · simp only [merase, if_neg h1]
        by_cases h2 : k' = k0
        · subst h2
          have hne : ¬k' = k := fun h => h1 h.symm
          simp [mlookup, hne]
        · simp only [mlookup, if_neg h2]
          exact ih

theorem mlookup_minsert (m : MruMap) (k k' : Int) (v : mruElt) :
    mlookup (minsert m k v) k' = if k' = k then some v else mlookup m k' := by
  simp only [minsert, mlookup]
  split_ifs with h1
  · rfl
  · rw [mlookup_merase, if_neg h1]

theorem mlookup_msetNext (m : MruMap) (k k' : Int) (v : Option Int) :
    mlookup (msetNext m k v) k' =
      if k' = k then (mlookup m k).map (fun e => { e with next := v })
      else mlookup m k' := by
  unfold msetNext
  cases h : mlookup m k with
  | none =>
      by_cases h2 : k' = k <;> simp [h, h2]
  | some e =>
      rw [mlookup_minsert]
      by_cases h2 : k' = k <;> simp [h, h2]

theorem mlookup_msetPrev (m : MruMap) (k k' : Int) (v : Option Int) :
    mlookup (msetPrev m k v) k' =
      if k' = k then (mlookup m k).map (fun e => { e with prev := v })
      else mlookup m k' := by
  unfold msetPrev
  cases h : mlookup m k with
  | none =>
      by_cases h2 : k' = k <;> simp [h, h2]
  | some e =>
      rw [mlookup_minsert]
      by_cases h2 : k' = k <;> simp [h, h2]

theorem isSome_msetNext (m : MruMap) (k k' : Int) (v : Option Int) :
    (mlookup (msetNext m k v) k').isSome = (mlookup m k').isSome := by
  rw [mlookup_msetNext]
  split_ifs with h
  · subst h; cases mlookup m k' <;> rfl
  · rfl

theorem isSome_msetPrev (m : MruMap) (k k' : Int) (v : Option Int) :
    (mlookup (msetPrev m k v) k').isSome = (mlookup m k').isSome := by
  rw [mlookup_msetPrev]
  split_ifs with h
  · subst h; cases mlookup m k' <;> rfl
  · rfl

theorem headIDOr_append (as bs : List listWindow) (nxt : Option Int) :
    headIDOr (as ++ bs) nxt = headIDOr as (headIDOr bs nxt) := by
  cases as <;> rfl

theorem lastIDOr_append (as bs : List listWindow) (d : Option Int) :
    lastIDOr (as ++ bs) d = lastIDOr bs (lastIDOr as d) := by
  induction as generalizing d with
  | nil => rfl
  | cons a as ih => simp [lastIDOr, ih]

theorem chainSeg_congr {m m' : MruMap} {prv nxt : Option Int}
    {ws : List listWindow}
    (hagree : ∀ w ∈ ws, mlookup m' w.ID = mlookup m w.ID)
    (h : chainSeg m prv ws nxt) : chainSeg m' prv ws nxt := by
  induction ws generalizing prv with
  | nil => trivial
  | cons w rest ih =>
      obtain ⟨e, he, h1, h2, h3, h4, h5⟩ := h
      exact ⟨e, (hagree w (List.mem_cons_self w rest)).trans he, h1, h2, h3, h4,
        ih (fun x hx => hagree x (List.mem_cons_of_mem w hx)) h5⟩

theorem chainSeg_append {m : MruMap} {prv nxt : Option Int}
    (as bs : List listWindow) :
    chainSeg m prv (as ++ bs) nxt ↔
      chainSeg m prv as (headIDOr bs nxt) ∧
        chainSeg m (lastIDOr as prv) bs nxt := by
  induction as generalizing prv with
  | nil => simp [chainSeg, lastIDOr]
  | cons a as ih =>
      constructor
      · rintro ⟨e, he, h1, h2, h3, h4, h5⟩
        have h4' : e.next = headIDOr as (headIDOr bs nxt) := by
          rw [← headIDOr_append]
          exact h4
        obtain ⟨h6, h7⟩ := (@ih (some a.ID)).mp h5
        exact ⟨⟨e, he, h1, h2, h3, h4', h6⟩, h7⟩
      · rintro ⟨⟨e, he, h1, h2, h3, h4, h6⟩, h7⟩
        refine ⟨e, he, h1, h2, h3, ?_, (@ih (some a.ID)).mpr ⟨h6, h7⟩⟩
        have h4' : e.next = headIDOr (as ++ bs) nxt := by
          rw [headIDOr_append]
          exact h4
        exact h4'

theorem lastIDOr_concat (as : List listWindow) (w : listWindow) (d : Option Int) :
    lastIDOr (as ++ [w]) d = some w.ID := by
  rw [lastIDOr_append]
  rfl

/-- Updating only the `prev` pointer of the first record of a segment. -/
theorem chainSeg_update_prev {m m' : MruMap} {prv prv' nxt : Option Int}
    {w : listWindow} {rest : List listWindow}
    (h : chainSeg m prv (w :: rest) nxt)
    (hw : mlookup m' w.ID = (mlookup m w.ID).map (fun e => { e with prev := prv' }))
    (hrest : ∀ x ∈ rest, mlookup m' x.ID = mlookup m x.ID) :
    chainSeg m' prv' (w :: rest) nxt := by
  obtain ⟨e, he, h1, h2, h3, h4, h5⟩ := h
  refine ⟨{ e with prev := prv' }, ?_, h1, h2, rfl, h4, chainSeg_congr hrest h5⟩
  rw [hw, he]
  rfl

/-- Updating only the `next` pointer of the last record of a segment. -/
theorem chainSeg_update_last_next {m m' : MruMap} {prv nxt nxt' : Option Int}
    {as : List listWindow} {w : listWindow}
    (h : chainSeg m prv (as ++ [w]) nxt)
    (hw : mlookup m' w.ID = (mlookup m w.ID).map (fun e => { e with next := nxt' }))
    (hrest : ∀ x ∈ as, mlookup m' x.ID = mlookup m x.ID) :
    chainSeg m' prv (as ++ [w]) nxt' := by
  rw [chainSeg_append] at h ⊢
  obtain ⟨h6, h7⟩ := h
  refine ⟨chainSeg_congr hrest h6, ?_⟩
  obtain ⟨e, he, h1, h2, h3, h4, h5⟩ := h7
  refine ⟨{ e with next := nxt' }, ?_, h1, h2, h3, rfl, trivial⟩
  rw [hw, he]
  rfl

/-- `represents` only depends on the store through `mlookup`. -/
theorem represents_ext {l l' : windowMRUList} {ws : List listWindow}
    (hhead : l'.head = l.head) (hm : ∀ k, mlookup l'.m k = mlookup l.m k)
    (h : l.represents ws) : l'.represents ws := by
  refine ⟨hhead.trans h.head_eq, chainSeg_congr (fun w _ => hm w.ID) h.chain,
    h.nodup, fun k => ?_⟩
  rw [hm k]
  exact h.dom k

/-- `delete` on an id absent from the map returns the state unchanged. -/
theorem delete_of_not_mem {l : windowMRUList} {id : Int}
    (h : mlookup l.m id = none) : l.delete id = l := by
  unfold windowMRUList.delete
  rw [h]

theorem nodup_decomp {as bs : List listWindow} {w : listWindow}
    (h : (((as ++ w :: bs)).map listWindow.ID).Nodup) :
    w.ID ∉ as.map listWindow.ID ∧ w.ID ∉ bs.map listWindow.ID ∧
      (∀ x, x ∈ as.map listWindow.ID → x ∉ bs.map listWindow.ID) ∧
      (as.map listWindow.ID).Nodup ∧ (bs.map listWindow.ID).Nodup := by
  rw [List.map_append, List.map_cons] at h
  obtain ⟨h1, h2, h3⟩ := List.nodup_append.mp h
  obtain ⟨h4, h5⟩ := List.nodup_cons.mp h2
  refine ⟨fun hmem => ?_, h4, fun x hx hx2 => ?_, h1, h5⟩
  · exact h3 hmem (List.mem_cons_self _ _)
  · exact h3 hx (List.mem_cons_of_mem _ hx2)

theorem ne_of_not_mem_map {x : listWindow} {xs : List listWindow} {k : Int}
    (h : k ∉ xs.map listWindow.ID) (hx : x ∈ xs) : x.ID ≠ k := by
  intro hcontra
  exact h (hcontra ▸ List.mem_map_of_mem listWindow.ID hx)

theorem headIDOr_append_ne_nil {as : List listWindow} (h : as ≠ [])
    (bs cs : List listWindow) :
    headIDOr (as ++ bs) none = headIDOr (as ++ cs) none := by
  cases as with
  | nil => exact absurd rfl h
  | cons a as => rfl

theorem headIDOr_append_mem {as : List listWindow} (h : as ≠ [])
    (bs : List listWindow) :
    ∃ x, x ∈ as ∧ headIDOr (as ++ bs) none = some x.ID := by
  cases as with
  | nil => exact absurd rfl h
  | cons a as => exact ⟨a, List.mem_cons_self a as, rfl⟩

theorem dom_filter {l : windowMRUList} (as bs : List listWindow) {w : listWindow}
    (hdom : ∀ k, (mlookup l.m k).isSome = true ↔ k ∈ (as ++ w :: bs).map listWindow.ID)
    (hna : w.ID ∉ as.map listWindow.ID) (hnb : w.ID ∉ bs.map listWindow.ID)
    (m : MruMap)
    (hm : ∀ k, (mlookup m k).isSome = (mlookup (merase l.m w.ID) k).isSome) :
    ∀ k, (mlookup m k).isSome = true ↔ k ∈ (as ++ bs).map listWindow.ID := by
  intro k
  rw [hm k, mlookup_merase]
  by_cases hk : k = w.ID
  · subst hk
    simp only [if_pos rfl, List.map_append, List.mem_append]
    constructor
    · intro hc
      simp at hc
    · rintro (hc | hc)
      · exact absurd hc hna
      · exact absurd hc hnb
  · rw [if_neg hk]
    rw [hdom k]
    simp only [List.map_append, List.mem_append, List.map_cons, List.mem_cons]
    constructor
    · rintro (hc | hc | hc)
      · exact Or.inl hc
      · exact absurd hc hk
      · exact Or.inr hc
    · rintro (hc | hc)
      · exact Or.inl hc
      · exact Or.inr (Or.inr hc)

/-- `delete` removes exactly the record for `id` from the abstract list. -/
theorem delete_represents {l : windowMRUList} {ws : List listWindow}
    (h : l.represents ws) (id : Int) :
    (l.delete id).represents (ws.filter (fun w => w.ID ≠ id)) := by
  by_cases hid : id ∈ ws.map listWindow.ID
  case neg =>
    have hnone : mlookup l.m id = none := by
      cases hl : mlookup l.m id with
      | none => rfl
      | some e => exact absurd ((h.dom id).mp (by rw [hl]; rfl)) hid
    rw [delete_of_not_mem hnone]
    have hfe : ws.filter (fun w => w.ID ≠ id) = ws := by
      apply List.filter_eq_self.mpr
      intro w hw
      simpa using ne_of_not_mem_map hid hw
    rw [hfe]
    exact h
  case pos =>
    obtain ⟨w, hwin, hwid⟩ := List.mem_map.mp hid
    subst hwid
    obtain ⟨as, bs, rfl⟩ := List.append_of_mem hwin
    obtain ⟨hna, hnb, hdisj, hndas, hndbs⟩ := nodup_decomp h.nodup
    have hch := h.chain
    rw [chainSeg_append] at hch
    obtain ⟨hchas, hchw⟩ := hch
    have hchas' : chainSeg l.m none as (some w.ID) := hchas
    obtain ⟨e, he, he1, he2, he3, he4, he5⟩ := hchw
    have hfa : as.filter (fun x => x.ID ≠ w.ID) = as := by
      apply List.filter_eq_self.mpr
      intro x hx
      simpa using ne_of_not_mem_map hna hx
    have hfb : bs.filter (fun x => x.ID ≠ w.ID) = bs := by
      apply List.filter_eq_self.mpr
      intro x hx
      simpa using ne_of_not_mem_map hnb hx
    have hfe : (as ++ w :: bs).filter (fun x => x.ID ≠ w.ID) = as ++ bs := by
      rw [List.filter_append, hfa, List.filter_cons, if_neg (by simp), hfb]
    rw [hfe]
    have hnodup2 : ((as ++ bs).map listWindow.ID).Nodup := by
      rw [List.map_append]
      rw [List.nodup_append]
      exact ⟨hndas, hndbs, hdisj⟩
    simp only [windowMRUList.delete, he, he3, he4]
    obtain rfl | ⟨as0, alast, hcc⟩ := as.eq_nil_or_concat
    · -- id was at the head of the list
      have hh : l.head = some w.ID := h.head_eq
      cases bs with
      | nil =>
          refine ⟨by simp [lastIDOr, headIDOr, hh], trivial, by simp, ?_⟩
          have := dom_filter [] [] h.dom hna hnb
            (merase l.m w.ID) (fun k => rfl)
          simpa [lastIDOr, headIDOr] using this
      | cons b bs0 =>
          have hbne : b.ID ≠ w.ID := ne_of_not_mem_map hnb (List.mem_cons_self b bs0)
          have hbnin : b.ID ∉ bs0.map listWindow.ID := by
            rw [List.map_cons] at hndbs
            exact (List.nodup_cons.mp hndbs).1
          refine ⟨by simp [lastIDOr, headIDOr, hh], ?_, by simpa using hndbs, ?_⟩
          · -- chain: set the prev pointer of the new head to nil
            simp only [lastIDOr, headIDOr]
            refine chainSeg_update_prev (m := l.m) he5 ?_ ?_
            · rw [mlookup_msetPrev, if_pos rfl, mlookup_merase, if_neg hbne]
            · intro x hx
              have hx1 : x.ID ≠ b.ID := ne_of_not_mem_map hbnin hx
              have hx2 : x.ID ≠ w.ID :=
                ne_of_not_mem_map hnb (List.mem_cons_of_mem b hx)
              rw [mlookup_msetPrev, if_neg hx1, mlookup_merase, if_neg hx2]
          · have := dom_filter [] (b :: bs0) h.dom hna hnb
              (msetPrev (merase l.m w.ID) b.ID (lastIDOr [] none))
              (fun k => isSome_msetPrev _ _ _ _)
            simpa [lastIDOr, headIDOr] using this
    · -- id was not at the head
      rw [List.concat_eq_append] at hcc
      subst hcc
      have hAne : as0 ++ [alast] ≠ [] := by simp
      have hhead_ne : l.head ≠ some w.ID := by
        obtain ⟨x, hxmem, hxeq⟩ := headIDOr_append_mem hAne (w :: bs)
        rw [h.head_eq, hxeq]
        intro hc
        exact ne_of_not_mem_map hna hxmem (Option.some_injective _ hc)
      have hheq : l.head = headIDOr ((as0 ++ [alast]) ++ bs) none := by
        rw [h.head_eq]
        exact headIDOr_append_ne_nil hAne (w :: bs) bs
      have halast_nin : alast.ID ∉ as0.map listWindow.ID := by
        rw [List.map_append] at hndas
        intro hc
        exact (List.nodup_append.mp hndas).2.2 hc (by simp)
      have halast_w : alast.ID ≠ w.ID :=
        ne_of_not_mem_map hna (by simp)
      have hx_w : ∀ x ∈ as0, x.ID ≠ w.ID := fun x hx =>
        ne_of_not_mem_map hna (List.mem_append_left [alast] hx)
      rw [lastIDOr_concat]
      cases bs with
      | nil =>
          refine ⟨by rw [if_neg hhead_ne]; simpa [headIDOr] using hheq, ?_, hnodup2, ?_⟩
          · -- chain: clear the next pointer of the new last record
            simp only [headIDOr]
            have hres : chainSeg
                (msetNext (merase l.m w.ID) alast.ID none) none
                (as0 ++ [alast]) none := by
              refine chainSeg_update_last_next (m := l.m) hchas' ?_ ?_
              · rw [mlookup_msetNext, if_pos rfl, mlookup_merase, if_neg halast_w]
              · intro x hx
                have hx1 : x.ID ≠ alast.ID := ne_of_not_mem_map halast_nin hx
                rw [mlookup_msetNext, if_neg hx1, mlookup_merase, if_neg (hx_w x hx)]
            simpa using hres
          · have := dom_filter (as0 ++ [alast]) [] h.dom hna hnb
              (msetNext (merase l.m w.ID) alast.ID none)
              (fun k => isSome_msetNext _ _ _ _)
            simpa [headIDOr] using this
      | cons b bs0 =>
          have hbne : b.ID ≠ w.ID := ne_of_not_mem_map hnb (List.mem_cons_self b bs0)
          have hbnin : b.ID ∉ bs0.map listWindow.ID := by
            rw [List.map_cons] at hndbs
            exact (List.nodup_cons.mp hndbs).1
          have hbnin_as : b.ID ∉ (as0 ++ [alast]).map listWindow.ID := by
            intro hc
            exact hdisj b.ID hc (by simp)
          have halast_b : alast.ID ≠ b.ID := ne_of_not_mem_map hbnin_as (by simp)
          refine ⟨by rw [if_neg hhead_ne]; simpa [headIDOr] using hheq, ?_, hnodup2, ?_⟩
          · -- chain: stitch the two neighbours of the removed record together
            simp only [headIDOr]
            rw [chainSeg_append]
            constructor
            · -- the part before the removed record, retargeted at its successor
              refine chainSeg_update_last_next (m := l.m) hchas' ?_ ?_
              · rw [mlookup_msetPrev, if_neg halast_b, mlookup_msetNext, if_pos rfl,
                  mlookup_merase, if_neg halast_w]
                rfl
              · intro x hx
                have hx1 : x.ID ≠ alast.ID := ne_of_not_mem_map halast_nin hx
                have hx3 : x.ID ≠ b.ID :=
                  ne_of_not_mem_map hbnin_as (List.mem_append_left [alast] hx)
                rw [mlookup_msetPrev, if_neg hx3, mlookup_msetNext, if_neg hx1,
                  mlookup_merase, if_neg (hx_w x hx)]
            · -- the part after the removed record, with its prev retargeted
              rw [lastIDOr_concat]
              refine chainSeg_update_prev (m := l.m) he5 ?_ ?_
              · rw [mlookup_msetPrev, if_pos rfl, mlookup_msetNext,
                  if_neg (Ne.symm halast_b), mlookup_merase, if_neg hbne]
              · intro x hx
                have hx1 : x.ID ≠ b.ID := ne_of_not_mem_map hbnin hx
                have hx2 : x.ID ≠ w.ID :=
                  ne_of_not_mem_map hnb (List.mem_cons_of_mem b hx)
                have hx4 : x.ID ≠ alast.ID := by
                  intro hc
                  exact hdisj alast.ID (by simp)
                    (hc ▸ List.mem_map_of_mem listWindow.ID (List.mem_cons_of_mem b hx))
                rw [mlookup_msetPrev, if_neg hx1, mlookup_msetNext, if_neg hx4,
                  mlookup_merase, if_neg hx2]
          · have := dom_filter (as0 ++ [alast]) (b :: bs0) h.dom hna hnb
              (msetPrev (msetNext (merase l.m w.ID) alast.ID (some b.ID)) b.ID
                (some alast.ID))
              (fun k => by rw [isSome_msetPrev, isSome_msetNext])
            simpa [headIDOr] using this

theorem lastIDOr_eq_some {as : List listWindow} {x : Int}
    (h : lastIDOr as none = some x) : x ∈ as.map listWindow.ID := by
  obtain rfl | ⟨as0, alast, hcc⟩ := as.eq_nil_or_concat
  · exact absurd h (by simp [lastIDOr])
  · rw [List.concat_eq_append] at hcc
    subst hcc
    rw [lastIDOr_concat] at h
    have : alast.ID = x := Option.some_injective _ h
    rw [← this]
    simp

theorem headIDOr_eq_some {as : List listWindow} {x : Int}
    (h : headIDOr as none = some x) : x ∈ as.map listWindow.ID := by
  cases as with
  | nil => exact absurd h (by simp [headIDOr])
  | cons a as =>
      have : a.ID = x := Option.some_injective _ h
      rw [← this]
      simp

/-- Structural facts about the stored node of a represented id: its `id`
field is its key, and its neighbour pointers avoid the id itself and each
other. -/
theorem represents_entry_facts {l : windowMRUList} {ws : List listWindow}
    {id : Int} {e0 : mruElt}
    (h : l.represents ws) (he : mlookup l.m id = some e0) :
    e0.id = id ∧ e0.prev ≠ some id ∧ e0.next ≠ some id ∧
      ∀ x, e0.prev = some x → e0.next ≠ some x := by
  have hidmem : id ∈ ws.map listWindow.ID := (h.dom id).mp (by rw [he]; rfl)
  obtain ⟨w, hwin, hwid⟩ := List.mem_map.mp hidmem
  subst hwid
  obtain ⟨as, bs, rfl⟩ := List.append_of_mem hwin
  obtain ⟨hna, hnb, hdisj, hndas, hndbs⟩ := nodup_decomp h.nodup
  have hch := h.chain
  rw [chainSeg_append] at hch
  obtain ⟨e, he2, he3, he4, he5, he6, he7⟩ := hch.2
  rw [he] at he2
  have heq : e0 = e := Option.some_injective _ he2
  subst heq
  refine ⟨he3, ?_, ?_, ?_⟩
  · intro hc
    rw [he5] at hc
    exact hna (lastIDOr_eq_some hc)
  · intro hc
    rw [he6] at hc
    exact hnb (headIDOr_eq_some hc)
  · intro x hpx hnx
    rw [he5] at hpx
    rw [he6] at hnx
    exact hdisj x (lastIDOr_eq_some hpx) (headIDOr_eq_some hnx)

/-- `bringFront` on an id absent from the map inserts a fresh record at the
head and leaves the rest of the list unchanged. -/
theorem bringFront_fresh_represents {l : windowMRUList} {ws : List listWindow}
    {id : Int} (he : mlookup l.m id = none) (h : l.represents ws) (a : String) :
    (l.bringFront id a).represents ({ ID := id, AppID := a } :: ws) := by
  have hnotmem : id ∉ ws.map listWindow.ID := by
    intro hc
    have := (h.dom id).mpr hc
    rw [he] at this
    simp at this
  simp only [windowMRUList.bringFront, he, relinkFront]
  cases ws with
  | nil =>
      have hh : l.head = none := h.head_eq
      rw [hh]
      refine ⟨rfl, ?_, by simp, ?_⟩
      · exact ⟨{ prev := none, next := none, id := id, appID := a },
          by rw [mlookup_minsert, if_pos rfl], rfl, rfl, rfl, rfl, trivial⟩
      · intro k
        rw [mlookup_minsert]
        by_cases hk : k = id
        · simp [hk]
        · rw [if_neg hk, mlookup_minsert, if_neg hk]
          have hd := h.dom k
          simp only [List.map_cons, List.map_nil, List.mem_singleton] at hd ⊢
          rw [hd]
          simp [hk]
  | cons w0 rest =>
      have hh : l.head = some w0.ID := h.head_eq
      have hne : w0.ID ≠ id := ne_of_not_mem_map hnotmem (List.mem_cons_self w0 rest)
      have hw0nin : w0.ID ∉ rest.map listWindow.ID := by
        have := h.nodup
        rw [List.map_cons] at this
        exact (List.nodup_cons.mp this).1
      rw [hh]
      refine ⟨rfl, ?_, ?_, ?_⟩
      · refine ⟨{ prev := none, next := some w0.ID, id := id, appID := a }, ?_,
          rfl, rfl, rfl, rfl, ?_⟩
        · rw [mlookup_msetPrev, if_neg (fun hc => hne hc.symm), mlookup_minsert,
            if_pos rfl]
        · refine chainSeg_update_prev (m := l.m) h.chain ?_ ?_
          · rw [mlookup_msetPrev, if_pos rfl, mlookup_minsert, if_neg hne,
              mlookup_minsert, if_neg hne]
          · intro x hx
            have hx1 : x.ID ≠ w0.ID := ne_of_not_mem_map hw0nin hx
            have hx2 : x.ID ≠ id :=
              ne_of_not_mem_map hnotmem (List.mem_cons_of_mem w0 hx)
            rw [mlookup_msetPrev, if_neg hx1, mlookup_minsert, if_neg hx2,
              mlookup_minsert, if_neg hx2]
      · rw [List.map_cons]
        exact List.nodup_cons.mpr ⟨hnotmem, h.nodup⟩
      · intro k
        rw [isSome_msetPrev, mlookup_minsert]
        by_cases hk : k = id
        · simp [hk]
        · rw [if_neg hk, mlookup_minsert, if_neg hk]
          have hd := h.dom k
          rw [hd]
          simp [hk]

/-- `bringFront` on the id already at the head only updates the stored
`appID`; the order of the list is unchanged. -/
theorem bringFront_head_represents {l : windowMRUList} {w : listWindow}
    {rest : List listWindow}
    (h : l.represents (w :: rest)) (a : String) :
    (l.bringFront w.ID a).represents ({ ID := w.ID, AppID := a } :: rest) := by
  have hh : l.head = some w.ID := h.head_eq
  obtain ⟨e0, he, he1, he2, he3, he4, he5⟩ := h.chain
  have hw0nin : w.ID ∉ rest.map listWindow.ID := by
    have := h.nodup
    rw [List.map_cons] at this
    exact (List.nodup_cons.mp this).1
  simp only [windowMRUList.bringFront, he]
  rw [if_pos hh]
  refine ⟨hh, ?_, ?_, ?_⟩
  · refine ⟨{ e0 with appID := a }, by rw [mlookup_minsert, if_pos rfl],
      he1, rfl, he3, he4, ?_⟩
    refine chainSeg_congr ?_ he5
    intro x hx
    have hx1 : x.ID ≠ w.ID := ne_of_not_mem_map hw0nin hx
    rw [mlookup_minsert, if_neg hx1]
  · rw [List.map_cons]
    have := h.nodup
    rw [List.map_cons] at this
    exact this
  · intro k
    rw [mlookup_minsert]
    by_cases hk : k = w.ID
    · simp [hk]
    · rw [if_neg hk]
      have hd := h.dom k
      rw [hd]
      simp

theorem msetNext_pointwise {m m' : MruMap} {id : Int}
    (h : ∀ k, k ≠ id → mlookup m k = mlookup m' k) {x : Int} (hx : x ≠ id)
    (v : Option Int) :
    ∀ k, k ≠ id → mlookup (msetNext m x v) k = mlookup (msetNext m' x v) k := by
  intro k hk
  unfold msetNext
  rw [h x hx]
  cases mlookup m' x with
  | none => exact h k hk
  | some e =>
      rw [mlookup_minsert, mlookup_minsert]
      by_cases hkx : k = x
      · simp [hkx]
      · rw [if_neg hkx, if_neg hkx]
        exact h k hk

theorem msetPrev_pointwise {m m' : MruMap} {id : Int}
    (h : ∀ k, k ≠ id → mlookup m k = mlookup m' k) {x : Int} (hx : x ≠ id)
    (v : Option Int) :
    ∀ k, k ≠ id → mlookup (msetPrev m x v) k = mlookup (msetPrev m' x v) k := by
  intro k hk
  unfold msetPrev
  rw [h x hx]
  cases mlookup m' x with
  | none => exact h k hk
  | some e =>
      rw [mlookup_minsert, mlookup_minsert]
      by_cases hkx : k = x
      · simp [hkx]
      · rw [if_neg hkx, if_neg hkx]
        exact h k hk

theorem msetPrev_pointwise_all {m m' : MruMap}
    (h : ∀ k, mlookup m k = mlookup m' k) (x : Int) (v : Option Int) :
    ∀ k, mlookup (msetPrev m x v) k = mlookup (msetPrev m' x v) k := by
  intro k
  unfold msetPrev
  rw [h x]
  cases mlookup m' x with
  | none => exact h k
  | some e =>
      rw [mlookup_minsert, mlookup_minsert]
      by_cases hkx : k = x
      · simp [hkx]
      · rw [if_neg hkx, if_neg hkx]
        exact h k

/-- Lookup of the unlinked id itself after the neighbour-stitching writes. -/
theorem lookup_unlink_self {m : MruMap} {id : Int} (op onn : Option Int)
    (hbase : mlookup m id = none)
    (hp : ∀ p, op = some p → p ≠ id) (hn : ∀ n, onn = some n → n ≠ id) :
    mlookup (unlinkWrites m op onn) id = none := by
  unfold unlinkWrites
  cases hop : op with
  | none =>
      cases hon : onn with
      | none => exact hbase
      | some n =>
          rw [mlookup_msetPrev, if_neg (fun hc => hn n hon hc.symm)]
          exact hbase
  | some p =>
      cases hon : onn with
      | none =>
          rw [mlookup_msetNext, if_neg (fun hc => hp p hop hc.symm)]
          exact hbase
      | some n =>
          rw [mlookup_msetPrev, if_neg (fun hc => hn n hon hc.symm),
            mlookup_msetNext, if_neg (fun hc => hp p hop hc.symm)]
          exact hbase

/-- The neighbour-stitching writes give pointwise-equal stores (away from the
unlinked id) when applied to pointwise-equal bases. -/
theorem unlink_pointwise {mL mR : MruMap} {id : Int}
    (hbase : ∀ k, k ≠ id → mlookup mL k = mlookup mR k)
    (op onn : Option Int)
    (hp : ∀ p, op = some p → p ≠ id) (hn : ∀ n, onn = some n → n ≠ id) :
    ∀ k, k ≠ id →
      mlookup (unlinkWrites mL op onn) k = mlookup (unlinkWrites mR op onn) k := by
  unfold unlinkWrites
  cases hop : op with
  | none =>
      cases hon : onn with
      | none => exact hbase
      | some n => exact msetPrev_pointwise hbase (hn n hon) none
  | some p =>
      cases hon : onn with
      | none => exact msetNext_pointwise hbase (hp p hop) none
      | some n =>
          exact msetPrev_pointwise (msetNext_pointwise hbase (hp p hop) (some n))
            (hn n hon) (some p)

/-- On an existing non-head id, `bringFront` produces — observed through
`mlookup` and the head pointer — the same state as `delete` followed by a
fresh `bringFront` of the same id. -/
theorem bringFront_requeue_pointwise {l : windowMRUList} {id : Int} {e0 : mruElt}
    (he : mlookup l.m id = some e0) (hid : e0.id = id)
    (hhead : l.head ≠ some id)
    (hprev : e0.prev ≠ some id) (hnext : e0.next ≠ some id)
    (a : String) :
    (l.bringFront id a).head = ((l.delete id).bringFront id a).head ∧
      ∀ k, mlookup (l.bringFront id a).m k =
        mlookup ((l.delete id).bringFront id a).m k := by
  have hp : ∀ p, e0.prev = some p → p ≠ id := by
    intro p hpp hc
    exact hprev (hc ▸ hpp)
  have hn : ∀ n, e0.next = some n → n ≠ id := by
    intro n hnn hc
    exact hnext (hc ▸ hnn)
  have hdel_head : (l.delete id).head = l.head := by
    simp only [windowMRUList.delete, he]
    rw [if_neg hhead]
  have hdel_m : (l.delete id).m = unlinkWrites (merase l.m id) e0.prev e0.next := by
    simp only [windowMRUList.delete, he]
    rfl
  have hdel_none : mlookup (l.delete id).m id = none := by
    rw [hdel_m]
    exact lookup_unlink_self e0.prev e0.next (by rw [mlookup_merase, if_pos rfl]) hp hn
  have hbase : ∀ k, k ≠ id →
      mlookup (minsert l.m id { e0 with appID := a }) k =
        mlookup (merase l.m id) k := by
    intro k hk
    rw [mlookup_minsert, if_neg hk, mlookup_merase, if_neg hk]
  have hcore : ∀ k, k ≠ id →
      mlookup (unlinkWrites (minsert l.m id { e0 with appID := a }) e0.prev e0.next) k =
        mlookup (l.delete id).m k := by
    rw [hdel_m]
    exact unlink_pointwise hbase e0.prev e0.next hp hn
  have htop : ∀ k,
      mlookup (minsert
          (unlinkWrites (minsert l.m id { e0 with appID := a }) e0.prev e0.next) id
          { prev := none, next := l.head, id := e0.id, appID := a }) k =
      mlookup (minsert (minsert (l.delete id).m id
          { prev := none, next := none, id := id, appID := a }) id
          { prev := none, next := l.head, id := id, appID := a }) k := by
    intro k
    by_cases hk : k = id
    · rw [hk, mlookup_minsert, if_pos rfl, mlookup_minsert, if_pos rfl, hid]
    · rw [mlookup_minsert, if_neg hk, mlookup_minsert, if_neg hk,
        mlookup_minsert, if_neg hk]
      exact hcore k hk
  simp only [windowMRUList.bringFront, he, hdel_none, if_neg hhead, relinkFront,
    hdel_head]
  refine ⟨trivial, ?_⟩
  cases hh : l.head with
  | none =>
      rw [hh] at htop
      exact fun k => htop k
  | some hd =>
      intro k
      have := msetPrev_pointwise_all (fun j => htop j) hd (some id) k
      rw [hh] at this
      exact this

theorem filter_not_mem_id (ws : List listWindow) (id : Int) :
    id ∉ (ws.filter (fun w => w.ID ≠ id)).map listWindow.ID := by
  intro hc
  obtain ⟨x, hx, hxid⟩ := List.mem_map.mp hc
  have hmem := List.of_mem_filter hx
  simp [hxid] at hmem

/-- `bringFront` moves (or inserts) the record for `id` to the head, sets its
appID, and preserves the relative order of all other records. -/
theorem bringFront_represents {l : windowMRUList} {ws : List listWindow}
    (h : l.represents ws) (id : Int) (a : String) :
    (l.bringFront id a).represents
      ({ ID := id, AppID := a } :: ws.filter (fun w => w.ID ≠ id)) := by
  cases he : mlookup l.m id with
  | none =>
      have hnotmem : id ∉ ws.map listWindow.ID := by
        intro hc
        have hs := (h.dom id).mpr hc
        rw [he] at hs
        simp at hs
      have hfe : ws.filter (fun w => w.ID ≠ id) = ws := by
        apply List.filter_eq_self.mpr
        intro w hw
        simpa using ne_of_not_mem_map hnotmem hw
      rw [hfe]
      exact bringFront_fresh_represents he h a
  | some e0 =>
      obtain ⟨hid, hprev, hnext, _⟩ := represents_entry_facts h he
      by_cases hhd : l.head = some id
      · -- already at the head
        cases ws with
        | nil =>
            have hn : l.head = none := h.head_eq
            rw [hn] at hhd
            exact absurd hhd (by simp)
        | cons w rest =>
            have hw : w.ID = id := by
              have h2 : l.head = some w.ID := h.head_eq
              rw [h2] at hhd
              exact Option.some_injective _ hhd
            subst hw
            have hw0nin : w.ID ∉ rest.map listWindow.ID := by
              have hnd := h.nodup
              rw [List.map_cons] at hnd
              exact (List.nodup_cons.mp hnd).1
            have hfe : (w :: rest).filter (fun x => x.ID ≠ w.ID) = rest := by
              rw [List.filter_cons, if_neg (by simp)]
              apply List.filter_eq_self.mpr
              intro x hx
              simpa using ne_of_not_mem_map hw0nin hx
            rw [hfe]
            exact bringFront_head_represents h a
      · -- existing id not at the head: same as delete + fresh insert
        have hdrep := delete_represents h id
        have hdnone : mlookup (l.delete id).m id = none := by
          cases hl2 : mlookup (l.delete id).m id with
          | none => rfl
          | some e2 =>
              have hmem := (hdrep.dom id).mp (by rw [hl2]; rfl)
              exact absurd hmem (filter_not_mem_id ws id)
        have hfr := bringFront_fresh_represents hdnone hdrep a
        obtain ⟨hhead2, hm2⟩ := bringFront_requeue_pointwise he hid hhd hprev hnext a
        exact represents_ext hhead2 hm2 hfr

/-- In a well-formed chain the snapshot traversal returns exactly the
represented records, provided the 100-element debug cap is not hit. -/
theorem allFrom_spec {m : MruMap} {ws : List listWindow} {prv : Option Int}
    (h : chainSeg m prv ws none) :
    ∀ r, ws.length ≤ r →
      windowMRUList.allFrom m (headIDOr ws none) r = some ws := by
  induction ws generalizing prv with
  | nil =>
      intro r hr
      show windowMRUList.allFrom m none r = some []
      cases r with
      | zero => rfl
      | succ r2 => rfl
  | cons w rest ih =>
      intro r hr
      obtain ⟨e, he, he1, he2, he3, he4, he5⟩ := h
      obtain ⟨r2, rfl⟩ : ∃ r2, r = r2 + 1 := by
        cases r with
        | zero => simp at hr
        | succ r2 => exact ⟨r2, rfl⟩
      show windowMRUList.allFrom m (some w.ID) (r2 + 1) = some (w :: rest)
      rw [windowMRUList.allFrom, he]
      dsimp only
      rw [he4, ih he5 r2 (by simp only [List.length_cons] at hr; omega)]
      dsimp only
      rw [he1, he2]

/-- The initial state built by `newDaemonHandler` represents the empty list. -/
theorem empty_represents : windowMRUList.empty.represents [] := by
  refine ⟨rfl, trivial, List.nodup_nil, fun k => ?_⟩
  simp [windowMRUList.empty, mlookup]

/-- Snapshot correctness below the debug cap. -/
theorem all_represents {l : windowMRUList} {ws : List listWindow}
    (h : l.represents ws) (hlen : ws.length ≤ 100) : l.all = some ws := by
  unfold windowMRUList.all
  rw [h.head_eq]
  exact allFrom_spec h.chain 100 hlen

/-! ## Tree selection -/

mutual

theorem treeSelect_eq_filter : ∀ (n : Node) (fn : Node → Bool),
    treeSelect n fn = (walkTreeNodes n).filter fn
  | ⟨i, nm, t, a, v, f, fl, ns⟩, fn => by
      show (if fn ⟨i, nm, t, a, v, f, fl, ns⟩ then [(⟨i, nm, t, a, v, f, fl, ns⟩ : Node)]
          else []) ++ (treeSelectForest fl fn ++ treeSelectForest ns fn) =
        ((⟨i, nm, t, a, v, f, fl, ns⟩ :: (walkForest fl ++ walkForest ns)).filter fn)
      rw [List.filter_cons, List.filter_append,
        treeSelectForest_eq_filter fl fn, treeSelectForest_eq_filter ns fn]
      by_cases h : fn ⟨i, nm, t, a, v, f, fl, ns⟩ <;> simp [h]

theorem treeSelectForest_eq_filter : ∀ (l : List Node) (fn : Node → Bool),
    treeSelectForest l fn = (walkForest l).filter fn
  | [], _ => rfl
  | n :: ns, fn => by
      show treeSelect n fn ++ treeSelectForest ns fn =
        (walkTreeNodes n ++ walkForest ns).filter fn
      rw [List.filter_append, treeSelect_eq_filter n fn,
        treeSelectForest_eq_filter ns fn]

end

/-- A node is selected exactly when it occurs in the traversal and satisfies
the predicate. -/
theorem mem_treeSelect_iff (root : Node) (fn : Node → Bool) (n : Node) :
    n ∈ treeSelect root fn ↔ n ∈ walkTreeNodes root ∧ fn n = true := by
  rw [treeSelect_eq_filter]
  exact List.mem_filter

/-! ## The stable sort and the ranking order -/

theorem stableInsert_perm {α : Type _} (less : α → α → Bool) (x : α)
    (l : List α) : List.Perm (stableInsert less x l) (x :: l) := by
  induction l with
  | nil => exact List.Perm.refl _
  | cons y ys ih =>
      unfold stableInsert
      by_cases h : less y x = true
      · rw [if_pos h]
        exact (ih.cons y).trans (List.Perm.swap x y ys)
      · rw [if_neg h]

theorem sortStableFunc_perm {α : Type _} (less : α → α → Bool) (l : List α) :
    List.Perm (sortStableFunc less l) l := by
  induction l with
  | nil => exact List.Perm.refl _
  | cons x xs ih =>
      unfold sortStableFunc
      exact (stableInsert_perm less x (sortStableFunc less xs)).trans (ih.cons x)

theorem mem_sortStableFunc {α : Type _} {less : α → α → Bool} {l : List α}
    {y : α} : y ∈ sortStableFunc less l ↔ y ∈ l :=
  (sortStableFunc_perm less l).mem_iff

theorem pairwise_stableInsert {α : Type _} {P : α → Prop} {less : α → α → Bool}
    (hasym : ∀ a b, P a → P b → less a b = true → less b a = false)
    (hneg : ∀ a b c, P a → P b → P c → less b a = false → less c b = false →
      less c a = false)
    {x : α} (hx : P x) {l : List α} (hl : ∀ y ∈ l, P y)
    (h : l.Pairwise (fun a b => less b a = false)) :
    (stableInsert less x l).Pairwise (fun a b => less b a = false) := by
  induction l with
  | nil => simp [stableInsert]
  | cons y ys ih =>
      obtain ⟨hy, hys⟩ := List.pairwise_cons.mp h
      unfold stableInsert
      by_cases hxy : less y x = true
      · rw [if_pos hxy]
        refine List.pairwise_cons.mpr
          ⟨?_, ih (fun z hz => hl z (List.mem_cons_of_mem y hz)) hys⟩
        intro z hz
        have hmem : z = x ∨ z ∈ ys := by
          have := (stableInsert_perm less x ys).mem_iff.mp hz
          simpa using this
        rcases hmem with rfl | hzys
        · exact hasym y z (hl y (List.mem_cons_self y ys)) hx hxy
        · exact hy z hzys
      · rw [if_neg hxy]
        refine List.pairwise_cons.mpr ⟨?_, h⟩
        intro z hz
        rcases List.mem_cons.mp hz with rfl | hzys
        · exact Bool.of_not_eq_true hxy
        · exact hneg x y z hx (hl y (List.mem_cons_self y ys))
            (hl z (List.mem_cons_of_mem y hzys))
            (Bool.of_not_eq_true hxy) (hy z hzys)

theorem pairwise_sortStableFunc {α : Type _} {P : α → Prop} {less : α → α → Bool}
    (hasym : ∀ a b, P a → P b → less a b = true → less b a = false)
    (hneg : ∀ a b c, P a → P b → P c → less b a = false → less c b = false →
      less c a = false)
    {l : List α} (hl : ∀ y ∈ l, P y) :
    (sortStableFunc less l).Pairwise (fun a b => less b a = false) := by
  induction l with
  | nil => simp [sortStableFunc]
  | cons x xs ih =>
      unfold sortStableFunc
      exact pairwise_stableInsert hasym hneg (hl x (List.mem_cons_self x xs))
        (fun y hy => hl y (List.mem_cons_of_mem x (mem_sortStableFunc.mp hy)))
        (ih (fun y hy => hl y (List.mem_cons_of_mem x hy)))

theorem stableInsert_eq_append {α : Type _} (less : α → α → Bool) (x : α)
    (l : List α) :
    stableInsert less x l =
      l.takeWhile (fun y => less y x) ++ x :: l.dropWhile (fun y => less y x) := by
  induction l with
  | nil => rfl
  | cons y ys ih =>
      unfold stableInsert
      by_cases h : less y x = true
      · rw [if_pos h, List.takeWhile_cons, List.dropWhile_cons, ih]
        simp [h]
      · rw [if_neg h, List.takeWhile_cons, List.dropWhile_cons]
        have h2 : less y x = false := Bool.of_not_eq_true h
        simp [h2]

theorem filter_stableInsert_pos {α : Type _} {p : α → Bool} {less : α → α → Bool}
    {x : α} (hp : p x = true) {l : List α}
    (h : ∀ y ∈ l, less y x = true → p y = false) :
    (stableInsert less x l).filter p = x :: l.filter p := by
  rw [stableInsert_eq_append, List.filter_append]
  have h1 : (l.takeWhile (fun y => less y x)).filter p = [] := by
    rw [List.filter_eq_nil_iff]
    intro a ha
    have hless := List.mem_takeWhile_imp ha
    have hal : a ∈ l := (List.takeWhile_prefix _).sublist.subset ha
    simp [h a hal hless]
  have h2 : l.filter p = (l.dropWhile (fun y => less y x)).filter p := by
    conv_lhs => rw [← List.takeWhile_append_dropWhile (p := fun y => less y x) (l := l)]
    rw [List.filter_append, h1, List.nil_append]
  rw [h1, List.filter_cons, if_pos hp, h2]
  rfl

theorem filter_stableInsert_neg {α : Type _} {p : α → Bool} {less : α → α → Bool}
    {x : α} (hp : p x = false) (l : List α) :
    (stableInsert less x l).filter p = l.filter p := by
  rw [stableInsert_eq_append, List.filter_append, List.filter_cons,
    if_neg (by simp [hp])]
  conv_rhs => rw [← List.takeWhile_append_dropWhile (p := fun y => less y x) (l := l)]
  rw [List.filter_append]

theorem rankLt_irrefl (r : Bool × Bool × Nat) : rankLt r r = false := by
  obtain ⟨v, m, i⟩ := r
  simp [rankLt]

theorem rankLt_asymm {r0 r1 : Bool × Bool × Nat} (h : rankLt r0 r1 = true) :
    rankLt r1 r0 = false := by
  obtain ⟨v0, m0, i0⟩ := r0
  obtain ⟨v1, m1, i1⟩ := r1
  cases v0 <;> cases v1 <;> cases m0 <;> cases m1 <;>
    simp_all [rankLt] <;> omega

theorem rankLt_negtrans {r0 r1 r2 : Bool × Bool × Nat}
    (h01 : rankLt r1 r0 = false) (h12 : rankLt r2 r1 = false) :
    rankLt r2 r0 = false := by
  obtain ⟨v0, m0, i0⟩ := r0
  obtain ⟨v1, m1, i1⟩ := r1
  obtain ⟨v2, m2, i2⟩ := r2
  cases v0 <;> cases v1 <;> cases v2 <;> cases m0 <;> cases m1 <;> cases m2 <;>
    simp_all [rankLt] <;> omega

/-- On nodes carrying a visibility flag, the comparison used by the sort is
exactly the strict ordering of their sort keys. -/
theorem nodeLess_eq_rankLt (idx : Int → Option Nat) {n0 n1 : Node}
    (h0 : n0.Visible.isSome = true) (h1 : n1.Visible.isSome = true) :
    nodeLess idx n0 n1 = rankLt (rank idx n0) (rank idx n1) := by
  obtain ⟨v0, hv0⟩ := Option.isSome_iff_exists.mp h0
  obtain ⟨v1, hv1⟩ := Option.isSome_iff_exists.mp h1
  unfold nodeLess rank rankLt
  rw [hv0, hv1]
  by_cases hv : v0 = v1
  · subst hv
    cases hi0 : idx n0.ID <;> cases hi1 : idx n1.ID <;> simp [hi0, hi1]
  · cases hi0 : idx n0.ID <;> cases hi1 : idx n1.ID <;> simp [hi0, hi1, hv]

theorem nodeLess_asymm_vis (idx : Int → Option Nat) :
    ∀ a b : Node, a.Visible.isSome = true → b.Visible.isSome = true →
      nodeLess idx a b = true → nodeLess idx b a = false := by
  intro a b ha hb h
  rw [nodeLess_eq_rankLt idx ha hb] at h
  rw [nodeLess_eq_rankLt idx hb ha]
  exact rankLt_asymm h

theorem nodeLess_negtrans_vis (idx : Int → Option Nat) :
    ∀ a b c : Node, a.Visible.isSome = true → b.Visible.isSome = true →
      c.Visible.isSome = true → nodeLess idx b a = false →
      nodeLess idx c b = false → nodeLess idx c a = false := by
  intro a b c ha hb hc h01 h12
  rw [nodeLess_eq_rankLt idx hb ha] at h01
  rw [nodeLess_eq_rankLt idx hc hb] at h12
  rw [nodeLess_eq_rankLt idx hc ha]
  exact rankLt_negtrans h01 h12

/-- Stability of the sort used by `focusExisting`: within each sort key, the
original (tree) order is kept. -/
theorem sortStableFunc_filter_rank (idx : Int → Option Nat) {l : List Node}
    (hl : ∀ n ∈ l, n.Visible.isSome = true) (r : Bool × Bool × Nat) :
    (sortStableFunc (nodeLess idx) l).filter (fun n => decide (rank idx n = r)) =
      l.filter (fun n => decide (rank idx n = r)) := by
  induction l with
  | nil => rfl
  | cons x xs ih =>
      have hxs : ∀ n ∈ xs, n.Visible.isSome = true :=
        fun n hn => hl n (List.mem_cons_of_mem x hn)
      unfold sortStableFunc
      by_cases hx : rank idx x = r
      · have hcond : ∀ y ∈ sortStableFunc (nodeLess idx) xs,
            nodeLess idx y x = true → decide (rank idx y = r) = false := by
          intro y hy hless
          have hymem : y ∈ xs := mem_sortStableFunc.mp hy
          have hyv := hxs y hymem
          have hxv := hl x (List.mem_cons_self x xs)
          rw [nodeLess_eq_rankLt idx hyv hxv] at hless
          by_cases hyr : rank idx y = r
          · rw [hyr, hx, rankLt_irrefl] at hless
            simp at hless
          · simp [hyr]
        rw [filter_stableInsert_pos (by simp [hx]) hcond, List.filter_cons,
          if_pos (by simp [hx]), ih hxs]
      · rw [filter_stableInsert_neg (by simp [hx]), List.filter_cons,
          if_neg (by simp [hx]), ih hxs]

/-! ## The claims -/

set_option maxRecDepth 40000

/-- C1: the claim that for every sequence of bringFront/remove calls from the
empty list the snapshot returns exactly the inserted-minus-removed ids fails
on the code: after 101 `bringFront` calls with distinct ids the snapshot
traversal hits the debug cap (`panic("boom")`, marked `FIXME: delete`) and
aborts instead of returning the set. -/
theorem C1_snapshot_panics_after_101_inserts : (mruSeed 101).all = none := by
  decide

/-- C2: after `bringFront id a` the record for `id` is at the head with its
appID set to `a` and the relative order of all other records is unchanged;
when `id` was already at the head, the order of the whole list is unchanged. -/
theorem C2_bringFront_moves_to_head {l : windowMRUList} {ws : List listWindow}
    (h : l.represents ws) (id : Int) (a : String) :
    (l.bringFront id a).represents
        ({ ID := id, AppID := a } :: ws.filter (fun w => w.ID ≠ id)) ∧
      (∀ w0, ws.head? = some w0 → w0.ID = id →
        ({ ID := id, AppID := a } :: ws.filter (fun w => w.ID ≠ id)).map
            listWindow.ID = ws.map listWindow.ID) := by
  refine ⟨bringFront_represents h id a, ?_⟩
  intro w0 hw0 hwid
  cases ws with
  | nil => simp at hw0
  | cons w rest =>
      have hww : w = w0 := by simpa using hw0
      subst hww
      subst hwid
      have hwnin : w.ID ∉ rest.map listWindow.ID := by
        have hnd := h.nodup
        rw [List.map_cons] at hnd
        exact (List.nodup_cons.mp hnd).1
      rw [List.filter_cons, if_neg (by simp)]
      rw [List.filter_eq_self.mpr (fun x hx => by
        simpa using ne_of_not_mem_map hwnin hx)]
      simp

theorem C2_witness :
    ((windowMRUList.empty.bringFront 3 "b").bringFront 7 "x").represents
        ({ ID := 7, AppID := "x" } ::
          ({ ID := 3, AppID := "b" } ::
            ([] : List listWindow).filter (fun w => w.ID ≠ 3)).filter
            (fun w => w.ID ≠ 7)) ∧
      (∀ w0, ({ ID := 3, AppID := "b" } ::
            ([] : List listWindow).filter (fun w => w.ID ≠ 3)).head? = some w0 →
        w0.ID = 7 →
        ({ ID := 7, AppID := "x" } ::
          ({ ID := 3, AppID := "b" } ::
            ([] : List listWindow).filter (fun w => w.ID ≠ 3)).filter
            (fun w => w.ID ≠ 7)).map listWindow.ID =
          ({ ID := 3, AppID := "b" } ::
            ([] : List listWindow).filter (fun w => w.ID ≠ 3)).map listWindow.ID) :=
  C2_bringFront_moves_to_head (bringFront_represents empty_represents 3 "b") 7 "x"

/-- C3: the claim that snapshot, bringFront and remove never fail or abort
for lists of any size fails on the code: the snapshot traversal aborts
(`panic("boom")`) once the list exceeds 100 entries, while at 100 entries it
still returns normally. -/
theorem C3_snapshot_abort_boundary :
    (mruSeed 100).all.isSome = true ∧ (mruSeed 101).all.isSome = false := by
  constructor
  · decide
  · decide

/-- C4: the focus ranking is a stable sort of the matches: the result is a
permutation, no later element ranks strictly better (visible first, then
MRU-present, then smaller MRU position), elements of equal rank keep their
tree order, and on the spec example the sort gives
visible-mru0, visible-no-mru, invisible-mru2, whose first element is the
selection. -/
theorem C4_focus_ranking :
    (∀ (idx : Int → Option Nat) (ms : List Node),
      (∀ n ∈ ms, n.Visible.isSome = true) →
      List.Perm (sortStableFunc (nodeLess idx) ms) ms ∧
      (sortStableFunc (nodeLess idx) ms).Pairwise
        (fun a b => nodeLess idx b a = false) ∧
      (sortStableFunc (nodeLess idx) ms).Pairwise
        (fun a b => rankLt (rank idx b) (rank idx a) = false) ∧
      (∀ r, (sortStableFunc (nodeLess idx) ms).filter
            (fun n => decide (rank idx n = r)) =
          ms.filter (fun n => decide (rank idx n = r)))) ∧
    sortStableFunc (nodeLess exIdxRank)
        (treeSelect exRootRank (pickFocus none "")) =
      [exWin 3 true, exWin 2 true, exWin 1 false] ∧
    focusExisting exIdxRank exRootRank (pickFocus none "") =
      some (exWin 3 true).ID := by
  refine ⟨?_, by rfl, by rfl⟩
  intro idx ms hvis
  have hpw := pairwise_sortStableFunc (P := fun n : Node => n.Visible.isSome = true)
    (nodeLess_asymm_vis idx) (nodeLess_negtrans_vis idx) hvis
  refine ⟨sortStableFunc_perm _ _, hpw, ?_,
    fun r => sortStableFunc_filter_rank idx hvis r⟩
  refine List.Pairwise.imp_of_mem ?_ hpw
  intro a b ha hb hab
  have hav := hvis a (mem_sortStableFunc.mp ha)
  have hbv := hvis b (mem_sortStableFunc.mp hb)
  rw [← nodeLess_eq_rankLt idx hbv hav]
  exact hab

theorem C4_witness :
    List.Perm
        (sortStableFunc (nodeLess exIdxRank)
          (treeSelect exRootRank (pickFocus none "")))
        (treeSelect exRootRank (pickFocus none "")) ∧
      (sortStableFunc (nodeLess exIdxRank)
          (treeSelect exRootRank (pickFocus none ""))).Pairwise
        (fun a b => nodeLess exIdxRank b a = false) ∧
      (sortStableFunc (nodeLess exIdxRank)
          (treeSelect exRootRank (pickFocus none ""))).Pairwise
        (fun a b => rankLt (rank exIdxRank b) (rank exIdxRank a) = false) ∧
      (∀ r, (sortStableFunc (nodeLess exIdxRank)
            (treeSelect exRootRank (pickFocus none ""))).filter
            (fun n => decide (rank exIdxRank n = r)) =
          (treeSelect exRootRank (pickFocus none "")).filter
            (fun n => decide (rank exIdxRank n = r))) :=
  C4_focus_ranking.1 exIdxRank (treeSelect exRootRank (pickFocus none ""))
    (by
      intro n hn
      simp only [show treeSelect exRootRank (pickFocus none "") =
        [exWin 1 false, exWin 2 true, exWin 3 true] from rfl] at hn
      simp only [List.mem_cons, List.not_mem_nil, or_false] at hn
      rcases hn with rfl | rfl | rfl <;> rfl)

/-- C5: appnext on the matches (in tree order) for the focused window's app
id selects the match at index (i+1) modulo the number of matches, where i is
the focused node's index; with fewer than two matches it is a no-op. -/
theorem C5_appnext_wraps (root focused : Node) (fApp : String)
    (hApp : focused.AppID = some fApp) :
    ((treeSelect root (appNextPred fApp)).length < 2 →
      cmdAppNext root focused = AppNextResult.noop) ∧
    (∀ i n, 2 ≤ (treeSelect root (appNextPred fApp)).length →
      (treeSelect root (appNextPred fApp)).findIdx? (fun m => m == focused) =
        some i →
      (treeSelect root (appNextPred fApp)).get?
          ((i + 1) % (treeSelect root (appNextPred fApp)).length) = some n →
      cmdAppNext root focused = AppNextResult.focus n.ID) := by
  constructor
  · intro hlen
    unfold cmdAppNext
    rw [hApp]
    dsimp only
    rw [if_pos hlen]
  · intro i n hlen hidx hget
    unfold cmdAppNext
    rw [hApp]
    dsimp only
    rw [if_neg (by omega), hidx]
    dsimp only
    rw [hget]

theorem C5_witness :
    cmdAppNext exRootApp (exApp 11 true) =
      AppNextResult.focus (exApp 12 false).ID :=
  (C5_appnext_wraps exRootApp (exApp 11 true) "term" rfl).2 1 (exApp 12 false)
    (by decide) (by rfl) (by rfl)

/-- C6: prev focuses the first MRU entry whose id differs from the focused
window's id, and reports "no other window" when no entry differs (including
the empty snapshot). -/
theorem C6_prev_selection (mru : List listWindow) (fid : Int) :
    (∀ w, mru.find? (fun w => w.ID ≠ fid) = some w →
      cmdPrev mru fid = PrevResult.focus w.ID) ∧
    (mru.find? (fun w => w.ID ≠ fid) = none →
      cmdPrev mru fid = PrevResult.noOther) := by
  induction mru with
  | nil =>
      refine ⟨fun w hf => ?_, fun _ => rfl⟩
      simp [List.find?] at hf
  | cons w0 rest ih =>
      constructor
      · intro w hf
        unfold cmdPrev
        by_cases h0 : w0.ID = fid
        · rw [if_pos h0]
          rw [List.find?_cons_of_neg _ (by simp [h0])] at hf
          exact ih.1 w hf
        · rw [if_neg h0]
          rw [List.find?_cons_of_pos _ (by simp [h0])] at hf
          rw [Option.some_injective _ hf]
      · intro hf
        unfold cmdPrev
        by_cases h0 : w0.ID = fid
        · rw [if_pos h0]
          rw [List.find?_cons_of_neg _ (by simp [h0])] at hf
          exact ih.2 hf
        · rw [List.find?_cons_of_pos _ (by simp [h0])] at hf
          exact absurd hf (by simp)

theorem C6_witness :
    cmdPrev [{ ID := 1, AppID := "a" }, { ID := 2, AppID := "b" },
        { ID := 3, AppID := "c" }] 1 = PrevResult.focus 2 ∧
      cmdPrev [{ ID := 1, AppID := "a" }] 1 = PrevResult.noOther :=
  ⟨(C6_prev_selection _ 1).1 { ID := 2, AppID := "b" } (by rfl),
    (C6_prev_selection _ 1).2 (by rfl)⟩

/-- C7: remove of an absent id leaves the state exactly unchanged, and remove
followed by bringFront of the same id re-inserts it as a fresh record at the
head: the deleted state no longer knows the id, and the re-insert represents
the same abstract list as inserting a never-seen id. -/
theorem C7_remove_reinsert {l : windowMRUList} {ws : List listWindow}
    (h : l.represents ws) (id : Int) (a : String) :
    (mlookup l.m id = none → l.delete id = l) ∧
    mlookup (l.delete id).m id = none ∧
    ((l.delete id).bringFront id a).represents
      ({ ID := id, AppID := a } :: ws.filter (fun w => w.ID ≠ id)) := by
  have hdrep := delete_represents h id
  have hdnone : mlookup (l.delete id).m id = none := by
    cases hl2 : mlookup (l.delete id).m id with
    | none => rfl
    | some e2 =>
        have hmem := (hdrep.dom id).mp (by rw [hl2]; rfl)
        exact absurd hmem (filter_not_mem_id ws id)
  exact ⟨fun hnone => delete_of_not_mem hnone, hdnone,
    bringFront_fresh_represents hdnone hdrep a⟩

theorem C7_witness :
    (mlookup (windowMRUList.empty.bringFront 5 "q").m 9 = none →
      (windowMRUList.empty.bringFront 5 "q").delete 9 =
        windowMRUList.empty.bringFront 5 "q") ∧
    mlookup ((windowMRUList.empty.bringFront 5 "q").delete 9).m 9 = none ∧
    (((windowMRUList.empty.bringFront 5 "q").delete 9).bringFront 9 "z").represents
      ({ ID := 9, AppID := "z" } ::
        ({ ID := 5, AppID := "q" } ::
          ([] : List listWindow).filter (fun w => w.ID ≠ 5)).filter
          (fun w => w.ID ≠ 9)) :=
  C7_remove_reinsert (bringFront_represents empty_represents 5 "q") 9 "z"

/-- C8 counterexample: the appnext predicate does not test the node kind, so
tree selection for appnext can return a node that is not a window kind: a
workspace container carrying an app id is selected. -/
theorem C8_counterexample :
    exWsCon ∈ treeSelect exRootWs (appNextPred "term") ∧
      isWindowType exWsCon = false := by
  refine ⟨?_, rfl⟩
  rw [show treeSelect exRootWs (appNextPred "term") = [exWsCon, exApp 21 true]
    from rfl]
  exact List.mem_cons_self _ _

/-- C8 (amended): tree selection returns exactly the traversal nodes
satisfying the command's own predicate — for the focus command the
conjunction of window kind, optional title match and optional app-id match;
for appnext only the app-id equality, with no window-kind test. -/
theorem C8_tree_selection_membership :
    (∀ (root : Node) (tm : Option (String → Bool)) (aid : String) (n : Node),
      n ∈ treeSelect root (pickFocus tm aid) ↔
        n ∈ walkTreeNodes root ∧ pickFocus tm aid n = true) ∧
    (∀ (root : Node) (fApp : String) (n : Node),
      n ∈ treeSelect root (appNextPred fApp) ↔
        n ∈ walkTreeNodes root ∧ appNextPred fApp n = true) :=
  ⟨fun root tm aid n => mem_treeSelect_iff root (pickFocus tm aid) n,
    fun root fApp n => mem_treeSelect_iff root (appNextPred fApp) n⟩

/-- C9: daemon startup with the lock already held fails immediately with the
"another instance running" diagnostic; with the lock free it acquires the
lock.  The flock call is modelled by its contract: with LOCK_EX|LOCK_NB it
returns an error exactly, and without blocking, when the lock is held. -/
theorem C9_singleton_guard (alreadyLocked : Bool) :
    (alreadyLocked = true →
      lockFile none alreadyLocked =
        LockResult.fatalMsg "Lockfile locked (is another instance running?)") ∧
    (alreadyLocked = false →
      lockFile none alreadyLocked = LockResult.acquired) := by
  constructor
  · intro h
    rw [h]
    rfl
  · intro h
    rw [h]
    rfl

theorem C9_witness :
    lockFile none true =
        LockResult.fatalMsg "Lockfile locked (is another instance running?)" ∧
      lockFile none false = LockResult.acquired :=
  ⟨(C9_singleton_guard true).1 rfl, (C9_singleton_guard false).2 rfl⟩

/-- C10: a focus event whose container has a nil or empty app id calls
bringFront with the literal string "?", so the window's record carries
AppID "?" at the head of the MRU list, and the snapshot (query response)
shows it with AppID "?". -/
theorem C10_unknown_appid {l : windowMRUList} {ws : List listWindow}
    (h : l.represents ws) (e : WindowEvent)
    (hfocus : e.Change = WindowChange.focus)
    (hnil : e.Container.AppID = none ∨ e.Container.AppID = some "") :
    daemonHandlerWindow l e = l.bringFront e.Container.ID "?" ∧
    (daemonHandlerWindow l e).represents
      ({ ID := e.Container.ID, AppID := "?" } ::
        ws.filter (fun w => w.ID ≠ e.Container.ID)) ∧
    ((ws.filter (fun w => w.ID ≠ e.Container.ID)).length ≤ 99 →
      (daemonHandlerWindow l e).all =
        some ({ ID := e.Container.ID, AppID := "?" } ::
          ws.filter (fun w => w.ID ≠ e.Container.ID))) := by
  have heq : daemonHandlerWindow l e = l.bringFront e.Container.ID "?" := by
    unfold daemonHandlerWindow
    rw [hfocus]
    dsimp only
    rcases hnil with hn | hn
    · rw [hn]
    · rw [hn]
      simp
  have hrep : (daemonHandlerWindow l e).represents
      ({ ID := e.Container.ID, AppID := "?" } ::
        ws.filter (fun w => w.ID ≠ e.Container.ID)) := by
    rw [heq]
    exact bringFront_represents h e.Container.ID "?"
  refine ⟨heq, hrep, fun hlen => ?_⟩
  exact all_represents hrep (by simp only [List.length_cons]; omega)

theorem C10_witness :
    daemonHandlerWindow windowMRUList.empty
        { Change := WindowChange.focus, Container := { ID := 4, AppID := none } } =
      windowMRUList.empty.bringFront 4 "?" ∧
    (daemonHandlerWindow windowMRUList.empty
        { Change := WindowChange.focus,
          Container := { ID := 4, AppID := none } }).represents
      ({ ID := 4, AppID := "?" } ::
        ([] : List listWindow).filter (fun w => w.ID ≠ 4)) ∧
    ((([] : List listWindow).filter (fun w => w.ID ≠ 4)).length ≤ 99 →
      (daemonHandlerWindow windowMRUList.empty
          { Change := WindowChange.focus,
            Container := { ID := 4, AppID := none } }).all =
        some ({ ID := 4, AppID := "?" } ::
          ([] : List listWindow).filter (fun w => w.ID ≠ 4))) :=
  C10_unknown_appid empty_represents
    { Change := WindowChange.focus, Container := { ID := 4, AppID := none } }
    rfl (Or.inl rfl)
